import Mathlib

/-!
Shallow embedding of `runtimeExtensionsEditor.ts`: the runtime-extension
record resolver (`RuntimeExtensionsEditor._resolveExtensions`), the
profile-trace segmenter embedded in it, and the extension-host profile
session state machine (`ExtensionHostProfileAction`).
Times and durations are microsecond counts, modelled as `Nat`.
-/

namespace RuntimeExtensions

/-- Activation data of an extension (the `activationTimes` object of
`IExtensionsStatus`). -/
structure ActivationTimes where
  startup : Bool
  codeLoadingTime : Nat
  activateCallTime : Nat
  activationEvent : String
deriving DecidableEq, Repr

/-- Live status of an extension (`IExtensionsStatus`). `activationTimes` is
absent (`none`) when the extension never activated. -/
structure IExtensionsStatus where
  activationTimes : Option ActivationTimes
  messages : List String
deriving DecidableEq, Repr

/-- Static description (`IExtensionDescription`). The descriptions reaching
the resolver were already filtered for a present entry point (`main`). -/
structure IExtensionDescription where
  id : String
  name : String
  version : String
  main : Bool
deriving DecidableEq, Repr

/-- Marketplace record (`IExtension` of the extensions workbench service). -/
structure IExtension where
  id : String
  displayName : String
deriving DecidableEq, Repr

/-- A captured profile trace (`IExtensionHostProfile`): `ids` and `deltas`
are read in lockstep by index. -/
structure IExtensionHostProfile where
  startTime : Nat
  endTime : Nat
  deltas : List Nat
  ids : List String
deriving DecidableEq, Repr

/-- Per-extension profile information (`IExtensionProfileInformation`): a
flat list where positions `2*i` and `2*i+1` hold the i-th segment's start and
end. -/
structure IExtensionProfileInformation where
  segments : List Nat
  totalTime : Nat
deriving DecidableEq, Repr

/-- One resolved row (`IRuntimeExtension`). The TS fields `marketplaceInfo`,
`status` and `profileInfo` may hold `undefined` or `null` at runtime;
modelled as `Option`. -/
structure IRuntimeExtension where
  originalIndex : Nat
  description : IExtensionDescription
  marketplaceInfo : Option IExtension
  status : Option IExtensionsStatus
  profileInfo : Option IExtensionProfileInformation
deriving DecidableEq, Repr

/-- `marketplaceMap` (lines 129-132): iterate the workbench service's `local`
list writing `marketplaceMap[extension.id] = extension`; a later entry with
the same id overwrites an earlier one, a missing key reads as `undefined`. -/
def buildMarketplaceMap (localExtensions : List IExtension) : String → Option IExtension :=
  localExtensions.foldl (fun m e => fun key => if key = e.id then some e else m key)
    (fun _ => none)

/-- The segment-grouping loop of `_resolveExtensions` (lines 139-155): walk
`deltas` with a running `currentStartTime`, appending the segment start and
its end onto the list kept for `ids[i]`. The keyed object is modelled as a
total function defaulting to `[]` (a key never written reads as `undefined`
and both reads of the object guard with `|| []` / re-initialisation).
When `ids` is shorter than `deltas` the JS read `ids[i]` yields `undefined`,
which object indexing coerces to the string key "undefined"; `headD`
reproduces that. -/
def buildSegments : Nat → List String → List Nat → (String → List Nat) → (String → List Nat)
  | _, _, [], segments => segments
  | currentStartTime, ids, delta :: deltas, segments =>
    let id := ids.headD "undefined"
    let updated := fun key =>
      if key = id then segments id ++ [currentStartTime, currentStartTime + delta]
      else segments key
    buildSegments (currentStartTime + delta) ids.tail deltas updated

/-- The `segments` map grouped by extension id for one trace. -/
def segmentsMap (profileInfo : IExtensionHostProfile) : String → List Nat :=
  buildSegments profileInfo.startTime profileInfo.ids profileInfo.deltas (fun _ => [])

/-- The per-extension total-time loop (lines 164-169): sum `end - start`
over the consecutive pairs of the flat segment list. Segment lists built by
the grouping loop always have even length. -/
def computeTotalTime : List Nat → Nat
  | s :: e :: rest => (e - s) + computeTotalTime rest
  | _ => 0

/-- One `result[i]` row (lines 161-182): attach marketplace info and status
by id lookup and, only when a trace is active, the profile information
computed from `segments[id] || []`. -/
def buildRecord (marketplaceMap : String → Option IExtension)
    (statusMap : String → Option IExtensionsStatus)
    (profileInfo : Option IExtensionHostProfile) (segments : String → List Nat)
    (i : Nat) (extensionDescription : IExtensionDescription) : IRuntimeExtension :=
  { originalIndex := i
    description := extensionDescription
    marketplaceInfo := marketplaceMap extensionDescription.id
    status := statusMap extensionDescription.id
    profileInfo :=
      match profileInfo with
      | some _ =>
        let extensionSegments := segments extensionDescription.id
        some { segments := extensionSegments
               totalTime := computeTotalTime extensionSegments }
      | none => none }

/-- Line 185, `result.filter((element) => element.status.activationTimes)`:
reading `activationTimes` of an `undefined` status throws a `TypeError`;
otherwise an element is kept exactly when `activationTimes` is present
(truthy). -/
def filterByActivationTimes : List IRuntimeExtension → Except String (List IRuntimeExtension)
  | [] => Except.ok []
  | element :: rest =>
    match element.status with
    | none => Except.error "TypeError: cannot read property activationTimes of undefined"
    | some status =>
      (filterByActivationTimes rest).map fun kept =>
        if status.activationTimes.isSome then element :: kept else kept

/-- The `totalTime` read by the sort comparator. In the sorting branch every
record carries `some` profile information, so the `none` default is never
reached there. -/
def profileTotalTime (r : IRuntimeExtension) : Nat :=
  match r.profileInfo with
  | some p => p.totalTime
  | none => 0

/-- The three-way comparator of lines 189-194: equal totals compare by
`a.originalIndex - b.originalIndex`, otherwise by
`b.profileInfo.totalTime - a.profileInfo.totalTime`. -/
def compareRecords (a b : IRuntimeExtension) : Int :=
  if profileTotalTime a = profileTotalTime b then
    (a.originalIndex : Int) - (b.originalIndex : Int)
  else
    (profileTotalTime b : Int) - (profileTotalTime a : Int)

/-- `a` may be placed before `b`: the comparator is non-positive. -/
def recordLe (a b : IRuntimeExtension) : Bool := compareRecords a b ≤ 0

/-- `Array.prototype.sort` with the comparator (line 189). On records with
pairwise distinct `originalIndex` the comparator is a strict total order, so
every comparison sort returns the same list regardless of stability;
modelled by `List.mergeSort`. -/
def sortRecords (l : List IRuntimeExtension) : List IRuntimeExtension :=
  l.mergeSort recordLe

/-- `RuntimeExtensionsEditor._resolveExtensions` (lines 128-198), as a
function of the editor state it reads: the workbench service's local
extension list, the status map, the active trace (`_profileInfo`, possibly
`null`) and the captured descriptions. -/
def resolveExtensions (localExtensions : List IExtension)
    (statusMap : String → Option IExtensionsStatus)
    (profileInfo : Option IExtensionHostProfile)
    (extensionsDescriptions : List IExtensionDescription) :
    Except String (List IRuntimeExtension) :=
  let marketplaceMap := buildMarketplaceMap localExtensions
  let segments :=
    match profileInfo with
    | some pi => segmentsMap pi
    | none => fun _ => []
  let result := extensionsDescriptions.enum.map fun p =>
    buildRecord marketplaceMap statusMap profileInfo segments p.1 p.2
  (filterByActivationTimes result).map fun filtered =>
    match profileInfo with
    | some _ => sortRecords filtered
    | none => filtered

/-- `ProfileSessionState` (lines 471-476). -/
inductive ProfileSessionState where
  | None
  | Starting
  | Running
  | Stopping
deriving DecidableEq, Repr

/-- Observable configuration of one `ExtensionHostProfileAction` between
event-loop turns: its two private fields (`_state`, `_profileSession`, the
session handle abstracted to a number) plus instrumentation of the effects:
how many start and stop requests are currently in flight, how many errors
were reported to `onUnexpectedError`, and the traces published through
`setProfileInfo`. -/
structure Config where
  state : ProfileSessionState
  profileSession : Option Nat
  pendingStarts : Nat
  pendingStops : Nat
  errors : Nat
  published : List IExtensionHostProfile
deriving DecidableEq, Repr

/-- The constructor state (lines 494-495): no session, state `None`, and no
effects yet. -/
def initConfig : Config :=
  { state := ProfileSessionState.None
    profileSession := none
    pendingStarts := 0
    pendingStops := 0
    errors := 0
    published := [] }

/-- The synchronous part of `run()` (lines 513-545): in `None` move to
`Starting` and issue one start request; in `Running` move to `Stopping`,
issue one stop request on the current handle and null the handle; in
`Starting` and `Stopping` do nothing. -/
def runStep (c : Config) : Config :=
  match c.state with
  | ProfileSessionState.None =>
    { c with state := ProfileSessionState.Starting, pendingStarts := c.pendingStarts + 1 }
  | ProfileSessionState.Starting => c
  | ProfileSessionState.Running =>
    { c with state := ProfileSessionState.Stopping
             pendingStops := c.pendingStops + 1
             profileSession := none }
  | ProfileSessionState.Stopping => c

/-- Resolution of `startExtensionHostProfile()` (lines 517-519): store the
session handle, enter `Running`. -/
def startOkStep (c : Config) (session : Nat) : Config :=
  { c with pendingStarts := c.pendingStarts - 1
           profileSession := some session
           state := ProfileSessionState.Running }

/-- Rejection of `startExtensionHostProfile()` (lines 520-523): report to
`onUnexpectedError`, return to `None`; no retry is issued. -/
def startErrStep (c : Config) : Config :=
  { c with pendingStarts := c.pendingStarts - 1
           errors := c.errors + 1
           state := ProfileSessionState.None }

/-- Resolution of `profileSession.stop()` (lines 529-533): publish the trace
via `setProfileInfo`, return to `None`. -/
def stopOkStep (c : Config) (result : IExtensionHostProfile) : Config :=
  { c with pendingStops := c.pendingStops - 1
           published := c.published ++ [result]
           state := ProfileSessionState.None }

/-- Rejection of `profileSession.stop()` (lines 534-537): report to
`onUnexpectedError`, return to `None`; nothing is published. -/
def stopErrStep (c : Config) : Config :=
  { c with pendingStops := c.pendingStops - 1
           errors := c.errors + 1
           state := ProfileSessionState.None }

/-- One event-loop turn of the action: either a `run()` invocation, or the
settlement of an in-flight start or stop request (which requires such a
request to be outstanding). -/
inductive Step : Config → Config → Prop where
  | run (c : Config) : Step c (runStep c)
  | startOk (c : Config) (session : Nat) (h : 1 ≤ c.pendingStarts) :
      Step c (startOkStep c session)
  | startErr (c : Config) (h : 1 ≤ c.pendingStarts) : Step c (startErrStep c)
  | stopOk (c : Config) (result : IExtensionHostProfile) (h : 1 ≤ c.pendingStops) :
      Step c (stopOkStep c result)
  | stopErr (c : Config) (h : 1 ≤ c.pendingStops) : Step c (stopErrStep c)

/-- Configurations reachable from the freshly constructed action. -/
def Reachable (c : Config) : Prop :=
  Relation.ReflTransGen Step initConfig c

/-- Spec-side formulation of the segmenter (for comparison with
`buildSegments`): the list of (cursor, label, delta) triples where the
cursor starts at the trace start and advances by every delta in trace
order. -/
def specCursorPairs : Nat → List String → List Nat → List (Nat × String × Nat)
  | _, _, [] => []
  | cursor, ids, delta :: deltas =>
    (cursor, ids.headD "undefined", delta) :: specCursorPairs (cursor + delta) ids.tail deltas

/-- Spec-side formulation of one label's flat segment list: exactly the
intervals `[cursor, cursor + delta)` of the triples bearing that label. -/
def specLabelSegments (pi : IExtensionHostProfile) (id : String) : List Nat :=
  ((specCursorPairs pi.startTime pi.ids pi.deltas).filter fun p => p.2.1 == id).flatMap
    fun p => [p.1, p.1 + p.2.2]

/-- Spec-side formulation of one label's total time: the sum of
`end - start` over that label's intervals. -/
def specLabelTotal (pi : IExtensionHostProfile) (id : String) : Nat :=
  (((specCursorPairs pi.startTime pi.ids pi.deltas).filter fun p => p.2.1 == id).map
    fun p => (p.1 + p.2.2) - p.1).sum

/-- Reading of a flat segment list as (start, end) pairs, following the
interface comment on `IExtensionProfileInformation.segments`
(`2*i` = segment start time, `2*i+1` = segment end time). -/
def toPairs : List Nat → List (Nat × Nat)
  | s :: e :: rest => (s, e) :: toPairs rest
  | _ => []

/-- Forget the marketplace field of a record (used to state that everything
else about the resolver's output is independent of the marketplace map). -/
def eraseMarketplaceInfo (r : IRuntimeExtension) : IRuntimeExtension :=
  { r with marketplaceInfo := none }

/-- State-machine invariant of the profiling action: a start request is in
flight exactly in `Starting`, a stop request exactly in `Stopping`, and the
session handle is held exactly in `Running`. -/
def Inv (c : Config) : Prop :=
  c.pendingStarts = (if c.state = ProfileSessionState.Starting then 1 else 0) ∧
  c.pendingStops = (if c.state = ProfileSessionState.Stopping then 1 else 0) ∧
  (c.profileSession.isSome ↔ c.state = ProfileSessionState.Running)

/-! Concrete inputs used by witnesses and counterexamples. -/

/-- Example description A. -/
def descA : IExtensionDescription := { id := "A", name := "A", version := "1", main := true }

/-- Example description B. -/
def descB : IExtensionDescription := { id := "B", name := "B", version := "1", main := true }

/-- Example description C. -/
def descC : IExtensionDescription := { id := "C", name := "C", version := "1", main := true }

/-- Example activation data. -/
def atimes : ActivationTimes :=
  { startup := false, codeLoadingTime := 1, activateCallTime := 2, activationEvent := "e" }

/-- A status of an extension that did activate. -/
def stWith : IExtensionsStatus := { activationTimes := some atimes, messages := [] }

/-- A status of an extension that never activated. -/
def stWithout : IExtensionsStatus := { activationTimes := none, messages := [] }

/-- Status map of the spec's scenario: A and C activated, B has a status but
no activation times. -/
def stMapAC : String → Option IExtensionsStatus := fun id =>
  if id = "A" then some stWith
  else if id = "C" then some stWith
  else if id = "B" then some stWithout
  else none

/-- The spec's example trace: start 1000, deltas (A,500), (B,300), (A,200). -/
def traceEx : IExtensionHostProfile :=
  { startTime := 1000, endTime := 2000, deltas := [500, 300, 200], ids := ["A", "B", "A"] }

/-- The row produced for A when resolving `[descA, descB, descC]` against
`stMapAC` without a trace. -/
def recA : IRuntimeExtension :=
  { originalIndex := 0, description := descA, marketplaceInfo := none,
    status := some stWith, profileInfo := none }

/-- The row produced for C when resolving `[descA, descB, descC]` against
`stMapAC` without a trace: its `originalIndex` is its position in the full
description list, 2, not its position in the filtered list. -/
def recC : IRuntimeExtension :=
  { originalIndex := 2, description := descC, marketplaceInfo := none,
    status := some stWith, profileInfo := none }

/-- The row produced for A when resolving with the example trace active. -/
def recAT : IRuntimeExtension :=
  { originalIndex := 0, description := descA, marketplaceInfo := none,
    status := some stWith,
    profileInfo := some { segments := [1000, 1500, 1800, 2000], totalTime := 700 } }

/-- The row produced for C when resolving with the example trace active:
C does not occur in the trace, so it gets empty segments and total 0. -/
def recCT : IRuntimeExtension :=
  { originalIndex := 2, description := descC, marketplaceInfo := none,
    status := some stWith,
    profileInfo := some { segments := [], totalTime := 0 } }

/-! Segmenter lemmas. -/

theorem buildSegments_apply (deltas : List Nat) :
    ∀ (cursor : Nat) (ids : List String) (acc : String → List Nat) (id : String),
      buildSegments cursor ids deltas acc id
        = acc id ++ (((specCursorPairs cursor ids deltas).filter fun p => p.2.1 == id).flatMap
            fun p => [p.1, p.1 + p.2.2]) := by
  induction deltas with
  | nil => intro cursor ids acc id; simp [buildSegments, specCursorPairs]
  | cons d ds ih =>
    intro cursor ids acc id
    rw [buildSegments, ih]
    by_cases h : ids.headD "undefined" = id
    · subst h
      simp [specCursorPairs, List.filter_cons, List.append_assoc]
    · have hb : (ids.headD "undefined" == id) = false := by
        simpa using h
      have h2 : ¬(id = ids.headD "undefined") := fun hc => h hc.symm
      rw [specCursorPairs, List.filter_cons, hb, if_neg h2]
      simp only [Bool.false_eq_true, if_false]

theorem segmentsMap_eq_specLabelSegments (pi : IExtensionHostProfile) (id : String) :
    segmentsMap pi id = specLabelSegments pi id := by
  unfold segmentsMap specLabelSegments
  rw [buildSegments_apply]
  simp

theorem computeTotalTime_flatMap (L : List (Nat × String × Nat)) :
    computeTotalTime (L.flatMap fun p => [p.1, p.1 + p.2.2])
      = (L.map fun p => (p.1 + p.2.2) - p.1).sum := by
  induction L with
  | nil => simp [computeTotalTime]
  | cons p L ih =>
    show computeTotalTime (p.1 :: (p.1 + p.2.2) :: L.flatMap fun q => [q.1, q.1 + q.2.2]) = _
    rw [computeTotalTime, ih]
    simp

theorem specCursorPairs_label_mem (deltas : List Nat) :
    ∀ (cursor : Nat) (ids : List String), ids.length = deltas.length →
      ∀ p ∈ specCursorPairs cursor ids deltas, p.2.1 ∈ ids := by
  induction deltas with
  | nil => intro cursor ids _ p hp; simp [specCursorPairs] at hp
  | cons d ds ih =>
    intro cursor ids hlen p hp
    cases ids with
    | nil => simp at hlen
    | cons i itl =>
      simp only [specCursorPairs, List.mem_cons] at hp
      rcases hp with h | h
      · subst h; simp
      · have : p.2.1 ∈ itl := by
          have := ih (cursor + d) itl (by simpa using hlen) p (by simpa using h)
          exact this
        exact List.mem_cons_of_mem _ this

theorem specCursorPairs_map_delta (deltas : List Nat) :
    ∀ (cursor : Nat) (ids : List String),
      (specCursorPairs cursor ids deltas).map (fun p => p.2.2) = deltas := by
  induction deltas with
  | nil => intro cursor ids; simp [specCursorPairs]
  | cons d ds ih => intro cursor ids; simp [specCursorPairs, ih]

theorem sum_filter_fiber (L : List (Nat × String × Nat)) (S : Finset String)
    (h : ∀ p ∈ L, p.2.1 ∈ S) :
    (∑ id ∈ S, ((L.filter fun p => p.2.1 == id).map fun p => p.2.2).sum)
      = (L.map fun p => p.2.2).sum := by
  induction L with
  | nil => simp
  | cons p L ih =>
    have hstep : ∀ id : String,
        ((List.filter (fun q => q.2.1 == id) (p :: L)).map fun q => q.2.2).sum
          = (if p.2.1 = id then p.2.2 else 0)
            + ((L.filter fun q => q.2.1 == id).map fun q => q.2.2).sum := by
      intro id
      by_cases hid : p.2.1 = id
      · simp [List.filter_cons, hid]
      · have hb : (p.2.1 == id) = false := by simpa using hid
        simp [List.filter_cons, hb, hid]
    calc (∑ id ∈ S, ((List.filter (fun q => q.2.1 == id) (p :: L)).map fun q => q.2.2).sum)
        = ∑ id ∈ S, ((if p.2.1 = id then p.2.2 else 0)
            + ((L.filter fun q => q.2.1 == id).map fun q => q.2.2).sum) := by
          exact Finset.sum_congr rfl fun id _ => hstep id
      _ = (∑ id ∈ S, (if p.2.1 = id then p.2.2 else 0))
            + ∑ id ∈ S, ((L.filter fun q => q.2.1 == id).map fun q => q.2.2).sum := by
          exact Finset.sum_add_distrib
      _ = p.2.2 + (L.map fun q => q.2.2).sum := by
          rw [Finset.sum_ite_eq S p.2.1 (fun _ => p.2.2), if_pos (h p (List.mem_cons_self p L)),
            ih fun q hq => h q (List.mem_cons_of_mem p hq)]
      _ = ((p :: L).map fun q => q.2.2).sum := by simp

theorem toPairs_flatMap (L : List (Nat × String × Nat)) :
    toPairs (L.flatMap fun p => [p.1, p.1 + p.2.2]) = L.map fun p => (p.1, p.1 + p.2.2) := by
  induction L with
  | nil => simp [toPairs]
  | cons p L ih =>
    show toPairs (p.1 :: (p.1 + p.2.2) :: L.flatMap fun q => [q.1, q.1 + q.2.2]) = _
    rw [toPairs, ih]
    rfl

theorem specCursorPairs_cursor_le (deltas : List Nat) :
    ∀ (cursor : Nat) (ids : List String), ∀ p ∈ specCursorPairs cursor ids deltas,
      cursor ≤ p.1 := by
  induction deltas with
  | nil => intro cursor ids p hp; simp [specCursorPairs] at hp
  | cons d ds ih =>
    intro cursor ids p hp
    simp only [specCursorPairs, List.mem_cons] at hp
    rcases hp with h | h
    · subst h; exact Nat.le_refl _
    · exact Nat.le_trans (Nat.le_add_right _ _) (ih (cursor + d) ids.tail p h)

theorem specCursorPairs_pairwise (deltas : List Nat) :
    ∀ (cursor : Nat) (ids : List String),
      (specCursorPairs cursor ids deltas).Pairwise fun p q => p.1 + p.2.2 ≤ q.1 := by
  induction deltas with
  | nil => intro cursor ids; simp [specCursorPairs]
  | cons d ds ih =>
    intro cursor ids
    refine List.Pairwise.cons ?_ (ih (cursor + d) ids.tail)
    intro q hq
    exact specCursorPairs_cursor_le ds (cursor + d) ids.tail q hq

/-- Claim C3: for every trace (a start time with label/delta pairs read in
lockstep), the segmenter gives each label exactly the intervals
`[cursor, cursor + delta)` of the pairs bearing that label, with the cursor
starting at the trace start and advanced by every delta in trace order; its
total time is the sum of `end - start` over those intervals; and a label
that never appears in the trace gets an empty segment list and total time
zero. -/
theorem segmenter_characterization (pi : IExtensionHostProfile) (id : String)
    (hlen : pi.ids.length = pi.deltas.length) :
    segmentsMap pi id = specLabelSegments pi id ∧
    computeTotalTime (segmentsMap pi id) = specLabelTotal pi id ∧
    (id ∉ pi.ids → segmentsMap pi id = [] ∧ computeTotalTime (segmentsMap pi id) = 0) := by
  refine ⟨segmentsMap_eq_specLabelSegments pi id, ?_, ?_⟩
  · rw [segmentsMap_eq_specLabelSegments]
    unfold specLabelSegments specLabelTotal
    exact computeTotalTime_flatMap _
  · intro hid
    have hfilter : (specCursorPairs pi.startTime pi.ids pi.deltas).filter
        (fun p => p.2.1 == id) = [] := by
      refine List.filter_eq_nil_iff.mpr ?_
      intro p hp
      have hmem := specCursorPairs_label_mem pi.deltas pi.startTime pi.ids hlen p hp
      simp only [beq_iff_eq]
      intro hcontr
      exact hid (hcontr ▸ hmem)
    constructor
    · rw [segmentsMap_eq_specLabelSegments]
      unfold specLabelSegments
      rw [hfilter]
      rfl
    · rw [segmentsMap_eq_specLabelSegments]
      unfold specLabelSegments
      rw [hfilter]
      rfl

/-- Claim C3 witness: at the example trace, the label A gets the two claimed
intervals and total 700, and a label absent from the trace gets nothing. -/
theorem segmenter_characterization_witness :
    (segmentsMap traceEx "Z" = specLabelSegments traceEx "Z" ∧
      computeTotalTime (segmentsMap traceEx "Z") = specLabelTotal traceEx "Z" ∧
      ("Z" ∉ traceEx.ids → segmentsMap traceEx "Z" = [] ∧
        computeTotalTime (segmentsMap traceEx "Z") = 0)) ∧
    segmentsMap traceEx "Z" = [] ∧
    segmentsMap traceEx "A" = [1000, 1500, 1800, 2000] ∧
    computeTotalTime (segmentsMap traceEx "A") = 700 := by
  have h := segmenter_characterization traceEx "Z" (by decide)
  exact ⟨h, (h.2.2 (by decide)).1, rfl, rfl⟩

/-- Claim C5: when the deltas of a trace sum exactly to its duration, the
per-label total times summed over all labels of the trace cover the whole
window `endTime - startTime`. -/
theorem segments_total_covers_trace (pi : IExtensionHostProfile)
    (hlen : pi.ids.length = pi.deltas.length)
    (hsum : pi.startTime + pi.deltas.sum = pi.endTime) :
    (∑ id ∈ pi.ids.toFinset, computeTotalTime (segmentsMap pi id))
      = pi.endTime - pi.startTime := by
  have hfib := sum_filter_fiber (specCursorPairs pi.startTime pi.ids pi.deltas) pi.ids.toFinset
    (fun p hp => List.mem_toFinset.mpr
      (specCursorPairs_label_mem pi.deltas pi.startTime pi.ids hlen p hp))
  calc (∑ id ∈ pi.ids.toFinset, computeTotalTime (segmentsMap pi id))
      = ∑ id ∈ pi.ids.toFinset,
          (((specCursorPairs pi.startTime pi.ids pi.deltas).filter fun p => p.2.1 == id).map
            fun p => p.2.2).sum := by
        refine Finset.sum_congr rfl fun id _ => ?_
        rw [segmentsMap_eq_specLabelSegments]
        unfold specLabelSegments
        rw [computeTotalTime_flatMap]
        simp
    _ = ((specCursorPairs pi.startTime pi.ids pi.deltas).map fun p => p.2.2).sum := hfib
    _ = pi.deltas.sum := by rw [specCursorPairs_map_delta]
    _ = pi.endTime - pi.startTime := by omega

/-- Claim C5 witness: the example trace has matching lengths, deltas summing
to the duration, and total coverage 1000. -/
theorem segments_total_covers_trace_witness :
    traceEx.ids.length = traceEx.deltas.length ∧
    traceEx.startTime + traceEx.deltas.sum = traceEx.endTime ∧
    (∑ id ∈ traceEx.ids.toFinset, computeTotalTime (segmentsMap traceEx id))
      = traceEx.endTime - traceEx.startTime :=
  ⟨by decide, by decide,
    segments_total_covers_trace traceEx (by decide) (by decide)⟩

/-- Claim C9: for every trace, each label's derived segments, read as
(start, end) pairs, are pairwise non-overlapping and ordered by start time
ascending: each pair is a genuine interval (start at most end) and every
earlier pair ends no later than any later pair starts. -/
theorem segments_disjoint_ordered (pi : IExtensionHostProfile) (id : String) :
    (toPairs (segmentsMap pi id)).Pairwise (fun p q => p.2 ≤ q.1) ∧
    ∀ p ∈ toPairs (segmentsMap pi id), p.1 ≤ p.2 := by
  rw [segmentsMap_eq_specLabelSegments]
  unfold specLabelSegments
  rw [toPairs_flatMap]
  constructor
  · refine List.pairwise_map.mpr ?_
    refine List.Pairwise.imp ?_
      (List.Pairwise.filter _ (specCursorPairs_pairwise pi.deltas pi.startTime pi.ids))
    intro a b hab
    exact hab
  · intro p hp
    rcases List.mem_map.mp hp with ⟨q, _, hq⟩
    subst hq
    exact Nat.le_add_right _ _

/-! Resolver lemmas. -/

theorem filterByActivationTimes_ok_sublist :
    ∀ {l kept : List IRuntimeExtension}, filterByActivationTimes l = Except.ok kept →
      kept.Sublist l := by
  intro l
  induction l with
  | nil =>
    intro kept h
    simp only [filterByActivationTimes, Except.ok.injEq] at h
    subst h
    exact List.Sublist.refl _
  | cons r rest ih =>
    intro kept h
    simp only [filterByActivationTimes] at h
    cases hst : r.status with
    | none => rw [hst] at h; exact absurd h (by simp)
    | some st =>
      rw [hst] at h
      cases hf : filterByActivationTimes rest with
      | error e => rw [hf] at h; exact absurd h (by simp [Except.map])
      | ok kept₀ =>
        rw [hf] at h
        simp only [Except.map, Except.ok.injEq] at h
        subst h
        by_cases ha : st.activationTimes.isSome
        · simp only [ha, if_pos]
          exact List.Sublist.cons₂ r (ih hf)
        · simp only [ha, if_neg, Bool.false_eq_true, if_false]
          exact List.Sublist.cons r (ih hf)

theorem filterByActivationTimes_mem :
    ∀ {l kept : List IRuntimeExtension}, filterByActivationTimes l = Except.ok kept →
      ∀ r ∈ kept, r ∈ l ∧ ∃ st, r.status = some st ∧ st.activationTimes.isSome := by
  intro l
  induction l with
  | nil =>
    intro kept h r hr
    simp only [filterByActivationTimes, Except.ok.injEq] at h
    subst h
    simp at hr
  | cons x rest ih =>
    intro kept h r hr
    simp only [filterByActivationTimes] at h
    cases hst : x.status with
    | none => rw [hst] at h; exact absurd h (by simp)
    | some st =>
      rw [hst] at h
      cases hf : filterByActivationTimes rest with
      | error e => rw [hf] at h; exact absurd h (by simp [Except.map])
      | ok kept₀ =>
        rw [hf] at h
        simp only [Except.map, Except.ok.injEq] at h
        subst h
        by_cases ha : st.activationTimes.isSome
        · rw [if_pos ha] at hr
          rcases List.mem_cons.mp hr with h0 | h0
          · subst h0
            exact ⟨List.mem_cons_self _ _, st, hst, ha⟩
          · rcases ih hf r h0 with ⟨hmem, hw⟩
            exact ⟨List.mem_cons_of_mem _ hmem, hw⟩
        · rw [if_neg ha] at hr
          rcases ih hf r hr with ⟨hmem, hw⟩
          exact ⟨List.mem_cons_of_mem _ hmem, hw⟩

theorem filterByActivationTimes_total :
    ∀ {l : List IRuntimeExtension}, (∀ r ∈ l, r.status.isSome) →
      ∃ kept, filterByActivationTimes l = Except.ok kept := by
  intro l
  induction l with
  | nil => intro _; exact ⟨[], rfl⟩
  | cons x rest ih =>
    intro h
    rcases ih (fun r hr => h r (List.mem_cons_of_mem _ hr)) with ⟨kept, hk⟩
    have hx := h x (List.mem_cons_self _ _)
    rcases Option.isSome_iff_exists.mp hx with ⟨st, hst⟩
    refine ⟨if st.activationTimes.isSome then x :: kept else kept, ?_⟩
    simp only [filterByActivationTimes, hst, hk, Except.map]

theorem filterByActivationTimes_erase :
    ∀ (l : List IRuntimeExtension),
      filterByActivationTimes (l.map eraseMarketplaceInfo)
        = (filterByActivationTimes l).map (List.map eraseMarketplaceInfo) := by
  intro l
  induction l with
  | nil => rfl
  | cons x rest ih =>
    simp only [List.map_cons, filterByActivationTimes]
    have hst : (eraseMarketplaceInfo x).status = x.status := rfl
    rw [hst]
    cases x.status with
    | none => rfl
    | some st =>
      rw [ih]
      cases filterByActivationTimes rest with
      | error e => rfl
      | ok kept =>
        simp only [Except.map]
        by_cases ha : st.activationTimes.isSome
        · rw [if_pos ha, if_pos ha]; rfl
        · rw [if_neg ha, if_neg ha]

theorem mem_enumFrom_getElem :
    ∀ (l : List IExtensionDescription) (n : Nat) (p : Nat × IExtensionDescription),
      p ∈ List.enumFrom n l → n ≤ p.1 ∧ l[p.1 - n]? = some p.2 := by
  intro l
  induction l with
  | nil => intro n p hp; simp at hp
  | cons a tl ih =>
    intro n p hp
    rw [List.enumFrom_cons] at hp
    rcases List.mem_cons.mp hp with h0 | h0
    · subst h0
      exact ⟨Nat.le_refl _, by simp⟩
    · rcases ih (n + 1) p h0 with ⟨hle, hget⟩
      refine ⟨Nat.le_trans (Nat.le_succ n) hle, ?_⟩
      have hsub : p.1 - n = (p.1 - (n + 1)) + 1 := by omega
      rw [hsub, List.getElem?_cons_succ]
      exact hget

theorem enumFrom_pairwise_fst :
    ∀ (l : List IExtensionDescription) (n : Nat),
      (List.enumFrom n l).Pairwise fun p q => p.1 < q.1 := by
  intro l
  induction l with
  | nil => intro n; simp
  | cons a tl ih =>
    intro n
    rw [List.enumFrom_cons]
    refine List.Pairwise.cons ?_ (ih (n + 1))
    intro q hq
    have := (mem_enumFrom_getElem tl (n + 1) q hq).1
    omega

theorem recordLe_trans (a b c : IRuntimeExtension) :
    recordLe a b → recordLe b c → recordLe a c := by
  simp only [recordLe, compareRecords, decide_eq_true_eq]
  intro hab hbc
  split_ifs at hab hbc ⊢ <;> omega

theorem recordLe_total (a b : IRuntimeExtension) :
    recordLe a b || recordLe b a := by
  simp only [recordLe, Bool.or_eq_true, decide_eq_true_eq, compareRecords]
  split_ifs <;> omega

theorem resolveExtensions_none_eq (localExtensions : List IExtension)
    (statusMap : String → Option IExtensionsStatus) (descs : List IExtensionDescription) :
    resolveExtensions localExtensions statusMap none descs
      = (filterByActivationTimes (descs.enum.map fun p =>
          buildRecord (buildMarketplaceMap localExtensions) statusMap none
            (fun _ => []) p.1 p.2)).map
          fun filtered => filtered := rfl

theorem resolveExtensions_some_eq (localExtensions : List IExtension)
    (statusMap : String → Option IExtensionsStatus) (pi : IExtensionHostProfile)
    (descs : List IExtensionDescription) :
    resolveExtensions localExtensions statusMap (some pi) descs
      = (filterByActivationTimes (descs.enum.map fun p =>
          buildRecord (buildMarketplaceMap localExtensions) statusMap (some pi)
            (segmentsMap pi) p.1 p.2)).map
          fun filtered => sortRecords filtered := rfl

theorem records_pairwise_oi (m : String → Option IExtension)
    (st : String → Option IExtensionsStatus) (pi : Option IExtensionHostProfile)
    (segs : String → List Nat) (descs : List IExtensionDescription) :
    (descs.enum.map fun p => buildRecord m st pi segs p.1 p.2).Pairwise
      fun a b => a.originalIndex < b.originalIndex := by
  refine List.pairwise_map.mpr ?_
  rw [List.enum_eq_enumFrom]
  exact List.Pairwise.imp (fun h => h) (enumFrom_pairwise_fst descs 0)

theorem mem_records_fields (m : String → Option IExtension)
    (st : String → Option IExtensionsStatus) (pi : Option IExtensionHostProfile)
    (segs : String → List Nat) (descs : List IExtensionDescription) (r : IRuntimeExtension)
    (hr : r ∈ descs.enum.map fun p => buildRecord m st pi segs p.1 p.2) :
    r.status = st r.description.id ∧ descs[r.originalIndex]? = some r.description ∧
    r.description ∈ descs ∧ (pi = none → r.profileInfo = none) := by
  rcases List.mem_map.mp hr with ⟨p, hp, hb⟩
  subst hb
  have hg := mem_enumFrom_getElem descs 0 p (by simpa [List.enum_eq_enumFrom] using hp)
  have hget : descs[p.1]? = some p.2 := by simpa using hg.2
  refine ⟨rfl, hget, List.getElem?_mem hget, ?_⟩
  intro hnone
  subst hnone
  rfl

/-- Claim C2 counterexample: descriptions `[A, B, C]` where only A and C
carry activation times and no trace is active. Resolve excludes B and
returns A then C, but C's `originalIndex` is 2 — its position in the full
description list — not 1, its position in the filtered candidate list. -/
theorem originalIndex_postfilter_counterexample :
    (resolveExtensions [] stMapAC none [descA, descB, descC]).map
        (fun l => l.map fun r => (r.description.id, r.originalIndex))
      = Except.ok [("A", 0), ("C", 2)] ∧
    (("C", 2) : String × Nat) ≠ ("C", 1) :=
  ⟨rfl, by decide⟩

/-- Claim C2 (amended): every output record's `originalIndex` is its
position in the description list given to resolve, before the status filter
and before sorting: indexing the input descriptions at `originalIndex`
returns the record's own description. -/
theorem originalIndex_position_in_descriptions (localExtensions : List IExtension)
    (statusMap : String → Option IExtensionsStatus)
    (profileInfo : Option IExtensionHostProfile) (descs : List IExtensionDescription)
    (l : List IRuntimeExtension)
    (h : resolveExtensions localExtensions statusMap profileInfo descs = Except.ok l) :
    ∀ r ∈ l, descs[r.originalIndex]? = some r.description := by
  intro r hr
  cases profileInfo with
  | none =>
    rw [resolveExtensions_none_eq] at h
    cases hf : filterByActivationTimes (descs.enum.map fun p =>
        buildRecord (buildMarketplaceMap localExtensions) statusMap none
          (fun _ => []) p.1 p.2) with
    | error e => rw [hf] at h; exact absurd h (by simp [Except.map])
    | ok kept =>
      rw [hf] at h
      simp only [Except.map, Except.ok.injEq] at h
      subst h
      have hrrec := (filterByActivationTimes_ok_sublist hf).subset hr
      exact (mem_records_fields _ _ _ _ _ r hrrec).2.1
  | some pi =>
    rw [resolveExtensions_some_eq] at h
    cases hf : filterByActivationTimes (descs.enum.map fun p =>
        buildRecord (buildMarketplaceMap localExtensions) statusMap (some pi)
          (segmentsMap pi) p.1 p.2) with
    | error e => rw [hf] at h; exact absurd h (by simp [Except.map])
    | ok kept =>
      rw [hf] at h
      simp only [Except.map, Except.ok.injEq] at h
      subst h
      have hrk : r ∈ kept := (List.mergeSort_perm kept recordLe).mem_iff.mp hr
      have hrrec := (filterByActivationTimes_ok_sublist hf).subset hrk
      exact (mem_records_fields _ _ _ _ _ r hrrec).2.1

/-- Claim C2 witness: in the scenario, the second output row is C with
`originalIndex` 2, and the description list at index 2 is indeed C. -/
theorem originalIndex_position_in_descriptions_witness :
    ([descA, descB, descC] : List IExtensionDescription)[recC.originalIndex]?
      = some recC.description :=
  originalIndex_position_in_descriptions [] stMapAC none [descA, descB, descC]
    [recA, recC] rfl recC (by decide)

/-- Claim C4 counterexample: an extension whose description has no status
entry at all is not silently excluded — the status filter reads
`activationTimes` of `undefined` and throws, so resolve fails instead of
returning a list. -/
theorem missing_status_throws_counterexample :
    resolveExtensions [] (fun _ => none) none [descA]
      = Except.error "TypeError: cannot read property activationTimes of undefined" ∧
    (Except.error "TypeError: cannot read property activationTimes of undefined"
      : Except String (List IRuntimeExtension)) ≠ Except.ok [] :=
  ⟨rfl, fun hc => Except.noConfusion hc⟩

/-- Claim C4 (amended): when every description has a status entry, resolve
succeeds; an extension whose status lacks activation times is silently
excluded, the output length is at most the number of input descriptions,
and every output record's identifier has a status entry with activation
times. A description with no status entry at all instead makes resolve
throw a `TypeError`. -/
theorem resolve_excludes_missing_activation (localExtensions : List IExtension)
    (statusMap : String → Option IExtensionsStatus)
    (profileInfo : Option IExtensionHostProfile) (descs : List IExtensionDescription)
    (h : ∀ d ∈ descs, (statusMap d.id).isSome) :
    ∃ l, resolveExtensions localExtensions statusMap profileInfo descs = Except.ok l ∧
      l.length ≤ descs.length ∧
      ∀ r ∈ l, ∃ st, statusMap r.description.id = some st ∧ st.activationTimes.isSome := by
  cases profileInfo with
  | none =>
    have hall : ∀ r ∈ descs.enum.map fun p =>
        buildRecord (buildMarketplaceMap localExtensions) statusMap none
          (fun _ => []) p.1 p.2, r.status.isSome := by
      intro r hr
      rcases mem_records_fields _ _ _ _ _ r hr with ⟨hst, _, hd, _⟩
      rw [hst]
      exact h r.description hd
    rcases filterByActivationTimes_total hall with ⟨kept, hk⟩
    refine ⟨kept, ?_, ?_, ?_⟩
    · rw [resolveExtensions_none_eq, hk]
      rfl
    · have := (filterByActivationTimes_ok_sublist hk).length_le
      simpa using this
    · intro r hr
      rcases filterByActivationTimes_mem hk r hr with ⟨hrrec, st, hst, ha⟩
      rcases mem_records_fields _ _ _ _ _ r hrrec with ⟨hstat, _, _, _⟩
      exact ⟨st, hstat ▸ hst, ha⟩
  | some pi =>
    have hall : ∀ r ∈ descs.enum.map fun p =>
        buildRecord (buildMarketplaceMap localExtensions) statusMap (some pi)
          (segmentsMap pi) p.1 p.2, r.status.isSome := by
      intro r hr
      rcases mem_records_fields _ _ _ _ _ r hr with ⟨hst, _, hd, _⟩
      rw [hst]
      exact h r.description hd
    rcases filterByActivationTimes_total hall with ⟨kept, hk⟩
    have hperm : kept.Perm (sortRecords kept) := (List.mergeSort_perm kept recordLe).symm
    refine ⟨sortRecords kept, ?_, ?_, ?_⟩
    · rw [resolveExtensions_some_eq, hk]
      rfl
    · have hlen : kept.length ≤ descs.length := by
        have := (filterByActivationTimes_ok_sublist hk).length_le
        simpa using this
      have := hperm.length_eq
      omega
    · intro r hr
      have hrk : r ∈ kept := hperm.mem_iff.mpr hr
      rcases filterByActivationTimes_mem hk r hrk with ⟨hrrec, st, hst, ha⟩
      rcases mem_records_fields _ _ _ _ _ r hrrec with ⟨hstat, _, _, _⟩
      exact ⟨st, hstat ▸ hst, ha⟩

/-- Claim C4 witness: in the scenario every description has a status entry,
so resolve succeeds with the guaranteed bounds. -/
theorem resolve_excludes_missing_activation_witness :
    ∃ l, resolveExtensions [] stMapAC none [descA, descB, descC] = Except.ok l ∧
      l.length ≤ ([descA, descB, descC] : List IExtensionDescription).length ∧
      ∀ r ∈ l, ∃ st, stMapAC r.description.id = some st ∧ st.activationTimes.isSome :=
  resolve_excludes_missing_activation [] stMapAC none [descA, descB, descC] (by decide)

/-- Claim C1: with an active trace, the resolved list is sorted descending
by `profileInfo.totalTime`, records with equal totals appear in ascending
`originalIndex` order, and re-sorting the result returns it unchanged: the
comparator induces a deterministic total order, independent of the host
sort's stability. -/
theorem resolve_sorted_with_trace (localExtensions : List IExtension)
    (statusMap : String → Option IExtensionsStatus) (pi : IExtensionHostProfile)
    (descs : List IExtensionDescription) (l : List IRuntimeExtension)
    (h : resolveExtensions localExtensions statusMap (some pi) descs = Except.ok l) :
    l.Pairwise (fun a b => profileTotalTime b < profileTotalTime a ∨
      (profileTotalTime a = profileTotalTime b ∧ a.originalIndex < b.originalIndex)) ∧
    sortRecords l = l := by
  rw [resolveExtensions_some_eq] at h
  cases hf : filterByActivationTimes (descs.enum.map fun p =>
      buildRecord (buildMarketplaceMap localExtensions) statusMap (some pi)
        (segmentsMap pi) p.1 p.2) with
  | error e => rw [hf] at h; exact absurd h (by simp [Except.map])
  | ok kept =>
    rw [hf] at h
    simp only [Except.map, Except.ok.injEq] at h
    subst h
    have hle : (sortRecords kept).Pairwise fun a b => recordLe a b :=
      List.sorted_mergeSort recordLe_trans recordLe_total kept
    have hkeptlt : kept.Pairwise fun a b => a.originalIndex < b.originalIndex :=
      List.Pairwise.sublist (filterByActivationTimes_ok_sublist hf)
        (records_pairwise_oi _ _ _ _ descs)
    have hne : (sortRecords kept).Pairwise fun a b => a.originalIndex ≠ b.originalIndex :=
      (List.Perm.pairwise_iff (fun hxy => Ne.symm hxy)
          (List.mergeSort_perm kept recordLe)).mpr
        (hkeptlt.imp fun hlt => Nat.ne_of_lt hlt)
    refine ⟨(hle.and hne).imp ?_, List.mergeSort_of_sorted hle⟩
    intro a b hab
    rcases hab with ⟨h1, h2⟩
    simp only [recordLe, decide_eq_true_eq, compareRecords] at h1
    by_cases heq : profileTotalTime a = profileTotalTime b
    · rw [if_pos heq] at h1
      exact Or.inr ⟨heq, by omega⟩
    · rw [if_neg heq] at h1
      exact Or.inl (by omega)

unseal List.merge List.mergeSort in
/-- Claim C1 witness: resolving the example inputs with the example trace
yields A (total 700) before C (total 0), the pairwise ordering holds, and
re-sorting leaves the list unchanged. -/
theorem resolve_sorted_with_trace_witness :
    ([recAT, recCT] : List IRuntimeExtension).Pairwise
      (fun a b => profileTotalTime b < profileTotalTime a ∨
        (profileTotalTime a = profileTotalTime b ∧ a.originalIndex < b.originalIndex)) ∧
    sortRecords [recAT, recCT] = [recAT, recCT] :=
  resolve_sorted_with_trace [] stMapAC traceEx [descA, descB, descC] [recAT, recCT] rfl

/-- Claim C6: with no active trace every output record's profile info is
`null`, the output is in filtered-candidate order (strictly ascending
`originalIndex`), and the id sequence of the output does not depend on the
marketplace list at all (in particular not on its iteration order; the
status map is a pure lookup function here, so it has no iteration order). -/
theorem resolve_no_trace_order (localExtensions : List IExtension)
    (statusMap : String → Option IExtensionsStatus) (descs : List IExtensionDescription)
    (l : List IRuntimeExtension)
    (h : resolveExtensions localExtensions statusMap none descs = Except.ok l) :
    (∀ r ∈ l, r.profileInfo = none) ∧
    (l.map fun r => r.originalIndex).Pairwise (· < ·) ∧
    ∀ localExtensions₂ : List IExtension,
      (resolveExtensions localExtensions₂ statusMap none descs).map
          (fun out => out.map fun r => r.description.id)
        = Except.ok (l.map fun r => r.description.id) := by
  rw [resolveExtensions_none_eq] at h
  cases hf : filterByActivationTimes (descs.enum.map fun p =>
      buildRecord (buildMarketplaceMap localExtensions) statusMap none
        (fun _ => []) p.1 p.2) with
  | error e => rw [hf] at h; exact absurd h (by simp [Except.map])
  | ok kept =>
    rw [hf] at h
    simp only [Except.map, Except.ok.injEq] at h
    subst h
    have hsub := filterByActivationTimes_ok_sublist hf
    refine ⟨?_, ?_, ?_⟩
    · intro r hr
      exact (mem_records_fields _ _ _ _ _ r (hsub.subset hr)).2.2.2 rfl
    · exact List.pairwise_map.mpr
        (List.Pairwise.sublist hsub (records_pairwise_oi _ _ _ _ descs))
    · intro localExtensions₂
      have hstripEq : (descs.enum.map fun p =>
            buildRecord (buildMarketplaceMap localExtensions₂) statusMap none
              (fun _ => []) p.1 p.2).map eraseMarketplaceInfo
          = (descs.enum.map fun p =>
            buildRecord (buildMarketplaceMap localExtensions) statusMap none
              (fun _ => []) p.1 p.2).map eraseMarketplaceInfo := by
        rw [List.map_map, List.map_map]
        rfl
      have h₂ := filterByActivationTimes_erase (descs.enum.map fun p =>
        buildRecord (buildMarketplaceMap localExtensions₂) statusMap none
          (fun _ => []) p.1 p.2)
      rw [hstripEq, filterByActivationTimes_erase, hf] at h₂
      cases hf₂ : filterByActivationTimes (descs.enum.map fun p =>
          buildRecord (buildMarketplaceMap localExtensions₂) statusMap none
            (fun _ => []) p.1 p.2) with
      | error e =>
        rw [hf₂] at h₂
        exact absurd h₂ (by simp [Except.map])
      | ok kept₂ =>
        rw [hf₂] at h₂
        simp only [Except.map, Except.ok.injEq] at h₂
        rw [resolveExtensions_none_eq, hf₂]
        simp only [Except.map, Except.ok.injEq]
        calc kept₂.map (fun r => r.description.id)
            = (kept₂.map eraseMarketplaceInfo).map (fun r => r.description.id) := by
              rw [List.map_map]; rfl
          _ = (kept.map eraseMarketplaceInfo).map (fun r => r.description.id) := by
              rw [h₂]
          _ = kept.map (fun r => r.description.id) := by
              rw [List.map_map]; rfl

/-- Claim C6 witness: resolving the scenario without a trace gives rows with
no profile info in ascending `originalIndex` order, and swapping in a
different marketplace list leaves the id order unchanged. -/
theorem resolve_no_trace_order_witness :
    recA.profileInfo = none ∧
    (([recA, recC] : List IRuntimeExtension).map fun r => r.originalIndex).Pairwise (· < ·) ∧
    (resolveExtensions [{ id := "A", displayName := "Ext A" }] stMapAC none
        [descA, descB, descC]).map (fun out => out.map fun r => r.description.id)
      = Except.ok (([recA, recC] : List IRuntimeExtension).map fun r => r.description.id) := by
  have h := resolve_no_trace_order [] stMapAC [descA, descB, descC] [recA, recC] rfl
  exact ⟨h.1 recA (by decide), h.2.1, h.2.2 [{ id := "A", displayName := "Ext A" }]⟩

/-! State-machine lemmas. -/

theorem inv_init : Inv initConfig := by
  refine ⟨rfl, rfl, ?_⟩
  simp [initConfig]

theorem inv_step : ∀ {c c₂ : Config}, Inv c → Step c c₂ → Inv c₂ := by
  intro c c₂ hinv hstep
  rcases hinv with ⟨h1, h2, h3⟩
  cases hstep with
  | run =>
    obtain ⟨st, sess, ps, pp, er, pub⟩ := c
    cases st <;> simp_all [Inv, runStep]
  | startOk session hps =>
    obtain ⟨st, sess, ps, pp, er, pub⟩ := c
    cases st <;> simp_all [Inv, startOkStep]
  | startErr hps =>
    obtain ⟨st, sess, ps, pp, er, pub⟩ := c
    cases st <;> simp_all [Inv, startErrStep]
  | stopOk result hpp =>
    obtain ⟨st, sess, ps, pp, er, pub⟩ := c
    cases st <;> simp_all [Inv, stopOkStep]
  | stopErr hpp =>
    obtain ⟨st, sess, ps, pp, er, pub⟩ := c
    cases st <;> simp_all [Inv, stopErrStep]

theorem inv_reachable : ∀ {c : Config}, Reachable c → Inv c := by
  intro c h
  unfold Reachable at h
  induction h with
  | refl => exact inv_init
  | tail hsteps hstep ih => exact inv_step ih hstep

/-- Claim C7: on every reachable controller configuration, at most one
start or stop request is outstanding; a `run()` arriving in `Starting` or
`Stopping` changes nothing and issues no request; `run()` never issues a
start request outside `None` and never issues a stop request outside
`Running`. -/
theorem controller_request_guards (c : Config) (h : Reachable c) :
    c.pendingStarts + c.pendingStops ≤ 1 ∧
    ((c.state = ProfileSessionState.Starting ∨ c.state = ProfileSessionState.Stopping) →
      runStep c = c) ∧
    (c.state ≠ ProfileSessionState.None →
      (runStep c).pendingStarts = c.pendingStarts) ∧
    (c.state ≠ ProfileSessionState.Running →
      (runStep c).pendingStops = c.pendingStops) := by
  rcases inv_reachable h with ⟨h1, h2, _⟩
  refine ⟨?_, ?_, ?_, ?_⟩
  · cases hs : c.state <;> rw [hs] at h1 h2 <;> simp at h1 h2 <;> omega
  · intro hst
    rcases hst with hs | hs <;> simp [runStep, hs]
  · intro hne
    cases hs : c.state with
    | None => exact absurd hs hne
    | Starting => simp [runStep, hs]
    | Running => simp [runStep, hs]
    | Stopping => simp [runStep, hs]
  · intro hne
    cases hs : c.state with
    | None => simp [runStep, hs]
    | Starting => simp [runStep, hs]
    | Running => exact absurd hs hne
    | Stopping => simp [runStep, hs]

/-- Claim C7 witness: after one `run()` from the initial configuration the
controller is `Starting` with exactly one outstanding request, and a second
`run()` changes nothing and issues nothing. -/
theorem controller_request_guards_witness :
    (runStep initConfig).pendingStarts + (runStep initConfig).pendingStops ≤ 1 ∧
    runStep (runStep initConfig) = runStep initConfig ∧
    (runStep (runStep initConfig)).pendingStarts = (runStep initConfig).pendingStarts ∧
    (runStep (runStep initConfig)).pendingStops = (runStep initConfig).pendingStops := by
  have h := controller_request_guards (runStep initConfig)
    (Relation.ReflTransGen.single (Step.run initConfig))
  exact ⟨h.1, h.2.1 (Or.inl rfl), h.2.2.1 (by decide), h.2.2.2 (by decide)⟩

/-- Claim C8: a failed start reports one error, returns the state to `None`
(idle), retires its request without issuing another, and leaves the stop
side and the published traces untouched; a failed stop likewise reports one
error, returns to `None`, and publishes no trace. -/
theorem controller_failure_handling (c : Config) :
    (startErrStep c).state = ProfileSessionState.None ∧
    (startErrStep c).errors = c.errors + 1 ∧
    (startErrStep c).pendingStarts = c.pendingStarts - 1 ∧
    (startErrStep c).pendingStops = c.pendingStops ∧
    (startErrStep c).published = c.published ∧
    (stopErrStep c).state = ProfileSessionState.None ∧
    (stopErrStep c).errors = c.errors + 1 ∧
    (stopErrStep c).pendingStops = c.pendingStops - 1 ∧
    (stopErrStep c).pendingStarts = c.pendingStarts ∧
    (stopErrStep c).published = c.published :=
  ⟨rfl, rfl, rfl, rfl, rfl, rfl, rfl, rfl, rfl, rfl⟩

/-- Claim C10: on every reachable controller configuration, the stored
session handle is non-null exactly when the state is `Running`; in
particular the handle is already null throughout `Stopping`. -/
theorem session_handle_iff_running (c : Config) (h : Reachable c) :
    (c.profileSession ≠ none ↔ c.state = ProfileSessionState.Running) ∧
    (c.state = ProfileSessionState.Stopping → c.profileSession = none) := by
  rcases inv_reachable h with ⟨_, _, h3⟩
  constructor
  · constructor
    · intro hne
      exact h3.mp (Option.ne_none_iff_isSome.mp hne)
    · intro hr
      exact Option.ne_none_iff_isSome.mpr (h3.mpr hr)
  · intro hstop
    by_contra hne
    have hrun := h3.mp (Option.ne_none_iff_isSome.mp hne)
    rw [hstop] at hrun
    exact ProfileSessionState.noConfusion hrun

/-- Claim C10 witness: run, successful start, then run again reaches the
`Stopping` state, where the handle has already been nulled. -/
theorem session_handle_iff_running_witness :
    (runStep (startOkStep (runStep initConfig) 7)).profileSession = none := by
  have r1 : Reachable (runStep initConfig) :=
    Relation.ReflTransGen.single (Step.run initConfig)
  have r2 : Reachable (startOkStep (runStep initConfig) 7) :=
    r1.tail (Step.startOk (runStep initConfig) 7 (by decide))
  have r3 : Reachable (runStep (startOkStep (runStep initConfig) 7)) :=
    r2.tail (Step.run (startOkStep (runStep initConfig) 7))
  exact (session_handle_iff_running _ r3).2 rfl

end RuntimeExtensions
